import Mathlib

/-
Verification of the variable-substitution and prompt-chain execution engine of
the PromptSynthesis app.

Text is modelled as `List Char` (`Str`). The JavaScript idiom
`result.split(pat).join(rep)` — replace every (leftmost, non-overlapping)
occurrence of `pat` by `rep`, scanning left to right and never re-scanning the
inserted replacement — is modelled by `replaceAll`. In every call site of the
source the pattern is a brace-delimited placeholder `{{key}}`, which is never
the empty string; `replaceAll` is the identity for an empty pattern, a case
that is unreachable in the embedded code.
-/

abbrev Str := List Char

/-- Test `leadsWith pat s` : `pat` is an initial run of `s` (Boolean). -/
def leadsWith : Str → Str → Bool
  | [], _ => true
  | _ :: _, [] => false
  | p :: ps, c :: cs => p == c && leadsWith ps cs

/-- Worker for `replaceAll`, structurally recursive on a fuel that bounds the
number of scanning steps; every step consumes at least one character, so a
fuel of `s.length` is always enough (`replaceFuelStable`). -/
def replaceFuel (pat rep : Str) : Nat → Str → Str
  | _, [] => []
  | 0, s => s
  | fuel + 1, c :: cs =>
    if leadsWith pat (c :: cs) && !pat.isEmpty then
      rep ++ replaceFuel pat rep fuel (cs.drop (pat.length - 1))
    else
      c :: replaceFuel pat rep fuel cs

/-- Model of `s.split(pat).join(rep)` of JavaScript: replace every leftmost,
non-overlapping occurrence of `pat` in `s` by `rep`, left to right, without
re-scanning the inserted `rep`. Identity when `pat` is empty (unreachable in
the embedded code, where `pat` is always `{{key}}`). -/
def replaceAll (pat rep s : Str) : Str :=
  replaceFuel pat rep s.length s

/-- First occurrence of `pat` in `s`: `some (a, b)` with `s = a ++ pat ++ b`
and `a` shortest, else `none`. -/
def splitFirst (pat : Str) : Str → Option (Str × Str)
  | [] => if leadsWith pat [] then some ([], []) else none
  | c :: cs =>
    if leadsWith pat (c :: cs) then some ([], (c :: cs).drop pat.length)
    else
      match splitFirst pat cs with
      | some (a, b) => some (c :: a, b)
      | none => none

/-- Predicate `occursIn q s` : `q` appears as a contiguous run inside `s`. -/
def occursIn (q s : Str) : Prop := ∃ a b, s = a ++ q ++ b

def occursB (q : Str) : Str → Bool
  | [] => leadsWith q []
  | c :: cs => leadsWith q (c :: cs) || occursB q cs

/-- The delimiter form `{{name}}` of a placeholder for `name`. -/
def braced (k : Str) : Str := '{' :: '{' :: (k ++ ['}', '}'])

/-- A well-formed placeholder name: no brace characters. -/
def braceFree (s : Str) : Prop := ∀ c ∈ s, c ≠ '{' ∧ c ≠ '}'

instance braceFreeDec (s : Str) : Decidable (braceFree s) := by
  unfold braceFree
  infer_instance

/-- The reserved prior-stage-output variable name `output_k`. -/
def outputKey (k : Nat) : Str := ['o', 'u', 't', 'p', 'u', 't', '_'] ++ Nat.toDigits 10 k

/-- A variable scope: association list in JavaScript `Object.entries` order
(string-keyed insertion order). -/
abbrev Scope := List (Str × Str)

/-- Function `substituteVars` of ChatBot.tsx (the prompt lab): for each entry of the
scope in order, `result = result.split(\x7b\x7bkey\x7d\x7d).join(val)`. -/
def substituteVars (scope : Scope) (text : Str) : Str :=
  scope.foldl (fun acc kv => replaceAll (braced kv.1) kv.2 acc) text

/-- The five-field RICCE prompt (types.ts `RiccePrompt`). -/
structure RiccePrompt where
  role : Str
  instruction : Str
  context : Str
  constraints : Str
  evaluation : Str
deriving DecidableEq

/-- Stage lifecycle status (types.ts `PromptChainStep.status`). -/
inductive Status where
  | idle
  | running
  | completed
  | error
deriving DecidableEq

/-- One link of the chain (types.ts `PromptChainStep`). The optional
`output?: string` field is modelled as a `Str`, with `[]` standing for both
`undefined` and the empty string, which JavaScript truthiness (the only way
the source consults it) cannot distinguish. -/
structure PromptChainStep where
  id : Str
  name : Str
  promptData : RiccePrompt
  output : Str := []
  status : Status := .idle
deriving DecidableEq

/-- Outcome of one `testPrompt` adapter call: `ok full` when the stream
finishes after delivering chunks concatenating to `full`; `err sofar` when it
rejects after delivering chunks concatenating to `sofar`. -/
inductive GenResult where
  | ok (full : Str)
  | err (sofar : Str)
deriving DecidableEq

def GenResult.isOk : GenResult → Bool
  | .ok _ => true
  | .err _ => false

/-- Function `substituteAll` of PromptBuilder.tsx (the chainer): first every global
variable entry, then for each step of index `idx < currentStepIndex` with a
truthy (nonempty) output, the reserved pattern `\x7b\x7boutput_idx+1\x7d\x7d`. -/
def substituteAll (globalVariables : Scope) (steps : List PromptChainStep)
    (currentStepIndex : Nat) (text : Str) : Str :=
  let afterGlobals :=
    globalVariables.foldl (fun acc kv => replaceAll (braced kv.1) kv.2 acc) text
  steps.enum.foldl
    (fun acc p =>
      if p.1 < currentStepIndex ∧ p.2.output ≠ [] then
        replaceAll (braced (outputKey (p.1 + 1))) p.2.output acc
      else acc)
    afterGlobals

/-- The generation request assembled in `runChain`:
`Role: ...\nInstruction: ...\nContext: ...\nConstraints: ...\nEvaluation: ...`
with each field resolved by `substituteAll`. -/
def fullPrompt (globalVariables : Scope) (steps : List PromptChainStep)
    (i : Nat) (data : RiccePrompt) : Str :=
  "Role: ".toList ++ substituteAll globalVariables steps i data.role
    ++ "\nInstruction: ".toList ++ substituteAll globalVariables steps i data.instruction
    ++ "\nContext: ".toList ++ substituteAll globalVariables steps i data.context
    ++ "\nConstraints: ".toList ++ substituteAll globalVariables steps i data.constraints
    ++ "\nEvaluation: ".toList ++ substituteAll globalVariables steps i data.evaluation

/-- The loop of `runChain` (PromptBuilder.tsx). `done` are the stages already
processed (mutated in place in the source, so later substitutions see their
final output), `todo` the remaining ones. `outcomes i` is the result of the
`i`-th `testPrompt` call. Returns the final stage list and the list of request
texts actually sent; on failure the loop breaks and the remaining stages are
left untouched. -/
def runChainGo (globalVariables : Scope) (outcomes : Nat → GenResult) :
    List PromptChainStep → List PromptChainStep → List PromptChainStep × List Str
  | done, [] => (done, [])
  | done, s :: rest =>
    let i := done.length
    let stepsNow := done ++ { s with status := .running, output := [] } :: rest
    let req := fullPrompt globalVariables stepsNow i s.promptData
    match outcomes i with
    | .ok out =>
      let next := runChainGo globalVariables outcomes
        (done ++ [{ s with status := .completed, output := out }]) rest
      (next.1, req :: next.2)
    | .err sofar =>
      (done ++ { s with status := .error, output := sofar } :: rest, [req])

/-- Function `runChain` of PromptBuilder.tsx, as the function from the initial stage
list to the final stage list (the state the caller observes) and the requests
issued to the generation adapter. -/
def runChain (globalVariables : Scope) (outcomes : Nat → GenResult)
    (steps : List PromptChainStep) : List PromptChainStep × List Str :=
  runChainGo globalVariables outcomes [] steps

/-- Function `addStep` of PromptBuilder.tsx: appends one new stage. In the source the
new stage is built with a fresh `crypto.randomUUID()` id and default prompt
fields; the stage is a parameter here, freshness of its id is a hypothesis
where it matters. -/
def addStep (steps : List PromptChainStep) (s : PromptChainStep) :
    List PromptChainStep :=
  steps ++ [s]

/-- Function `removeStep` of PromptBuilder.tsx: refuses when the list has at most one
element, otherwise filters out the stages with the given id. -/
def removeStep (steps : List PromptChainStep) (targetId : Str) :
    List PromptChainStep :=
  if 1 < steps.length then steps.filter (fun s => s.id != targetId) else steps

/-- States of the chain editor reachable from the initial single-stage chain
via `addStep` (with a fresh id, as produced by `crypto.randomUUID()`) and
`removeStep`. -/
inductive Reach : List PromptChainStep → Prop where
  | init (s : PromptChainStep) : Reach [s]
  | add (steps : List PromptChainStep) (s : PromptChainStep) :
      Reach steps → s.id ∉ steps.map PromptChainStep.id → Reach (addStep steps s)
  | remove (steps : List PromptChainStep) (targetId : Str) :
      Reach steps → Reach (removeStep steps targetId)

/-- Model of `Object.values(promptData).join(' ')`: the five fields in declaration
order, space-separated. -/
def joinedFields (d : RiccePrompt) : Str :=
  d.role ++ ' ' :: (d.instruction ++ ' ' :: (d.context ++ ' ' :: (d.constraints ++ ' ' :: d.evaluation)))

/-- Model of `v.replace(/[\x7b\x7d]/g, '')`: strip every brace character. -/
def stripBraces (s : Str) : Str :=
  s.filter (fun c => !(c == '{' || c == '}'))

theorem leadsWithEx (pat : Str) : ∀ s, leadsWith pat s = true ↔ ∃ t, s = pat ++ t := by
  induction pat with
  | nil => intro s; simp [leadsWith]
  | cons p ps ih =>
    intro s
    cases s with
    | nil => simp [leadsWith]
    | cons c cs =>
      simp only [leadsWith, Bool.and_eq_true, beq_iff_eq]
      constructor
      · rintro ⟨hpc, h⟩
        obtain ⟨t, rfl⟩ := (ih cs).mp h
        exact ⟨t, by simp [hpc]⟩
      · rintro ⟨t, ht⟩
        rw [List.cons_append] at ht
        injection ht with h1 h2
        exact ⟨h1.symm, (ih cs).mpr ⟨t, h2⟩⟩

theorem splitFirstDecomp : ∀ (pat s a b : Str), splitFirst pat s = some (a, b) → s = a ++ pat ++ b := by
  intro pat s
  induction s with
  | nil =>
    intro a b h
    unfold splitFirst at h
    split at h
    · next hl =>
      obtain ⟨t, ht⟩ := (leadsWithEx pat []).mp hl
      obtain ⟨hp, ht'⟩ := List.append_eq_nil.mp ht.symm
      simp only [Option.some.injEq, Prod.mk.injEq] at h
      obtain ⟨ha, hb⟩ := h
      simp [← ha, ← hb, hp]
    · exact absurd h (by simp)
  | cons c cs ih =>
    intro a b h
    unfold splitFirst at h
    split at h
    · next hl =>
      obtain ⟨t, ht⟩ := (leadsWithEx pat (c :: cs)).mp hl
      simp only [Option.some.injEq, Prod.mk.injEq] at h
      obtain ⟨ha, hb⟩ := h
      rw [← ha, ← hb, ht, List.nil_append, List.drop_left]
    · cases hcs : splitFirst pat cs with
      | none => rw [hcs] at h; exact absurd h (by simp)
      | some r =>
        obtain ⟨ra, rb⟩ := r
        rw [hcs] at h
        simp only [Option.some.injEq, Prod.mk.injEq] at h
        obtain ⟨ha, hb⟩ := h
        have hd := ih ra rb hcs
        rw [← ha, ← hb, hd]
        simp

theorem splitFirstLen {pat s : Str} {r : Str × Str} (h : splitFirst pat s = some r) :
    r.2.length + pat.length + r.1.length = s.length := by
  obtain ⟨ra, rb⟩ := r
  have := splitFirstDecomp pat s ra rb h
  subst this
  simp [List.length_append]
  omega

/-- Worker for `findNames`, structurally recursive on a fuel; every emitted
match consumes at least four characters, so a fuel of `s.length` is enough. -/
def findNamesFuel : Nat → Str → List Str
  | 0, _ => []
  | fuel + 1, s =>
    match splitFirst ['{', '{'] s with
    | none => []
    | some r =>
      match splitFirst ['}', '}'] r.2 with
      | none => []
      | some q => stripBraces (['{', '{'] ++ q.1 ++ ['}', '}']) :: findNamesFuel fuel q.2

/-- The successive matches of the lazy regex `/{{(.*?)}}/g` with the braces of
each match stripped: find the first `{{`, then the first `}}` after it, emit
the brace-stripped span, continue after it. -/
def findNames (s : Str) : List Str :=
  findNamesFuel (s.length + 1) s

/-- Worker for `dedupFirst`, structurally recursive on a fuel. -/
def dedupFuel : Nat → List Str → List Str
  | 0, _ => []
  | _, [] => []
  | fuel + 1, x :: xs => x :: dedupFuel fuel (xs.filter (fun y => !(y == x)))

/-- Model of `Array.from(new Set(list))`: de-duplicate keeping first occurrences. -/
def dedupFirst (l : List Str) : List Str :=
  dedupFuel l.length l

/-- Computation `detectedVars` of ChatBot.tsx: the de-duplicated brace-stripped matches of
`/{{(.*?)}}/g` over the space-joined five prompt fields. -/
def detectVariables (d : RiccePrompt) : List Str :=
  dedupFirst (findNames (joinedFields d))

/- ### Basic facts about `replaceAll` -/

theorem replaceFuelStable (pat rep : Str) :
    ∀ f1 f2 s, s.length ≤ f1 → s.length ≤ f2 →
      replaceFuel pat rep f1 s = replaceFuel pat rep f2 s := by
  intro f1
  induction f1 with
  | zero =>
    intro f2 s h1 _
    have hs : s = [] := List.length_eq_zero.mp (Nat.le_zero.mp h1)
    subst hs
    cases f2 <;> simp [replaceFuel]
  | succ n ih =>
    intro f2 s h1 h2
    cases s with
    | nil => cases f2 <;> simp [replaceFuel]
    | cons c cs =>
      cases f2 with
      | zero => simp at h2
      | succ m =>
        simp only [List.length_cons, Nat.add_le_add_iff_right] at h1 h2
        simp only [replaceFuel]
        by_cases hc : (leadsWith pat (c :: cs) && !pat.isEmpty) = true
        · rw [if_pos hc, if_pos hc]
          have hlen : (cs.drop (pat.length - 1)).length ≤ cs.length := by
            simp [List.length_drop]
          exact congrArg (rep ++ ·)
            (ih m _ (le_trans hlen h1) (le_trans hlen h2))
        · rw [if_neg hc, if_neg hc]
          exact congrArg (c :: ·) (ih m cs h1 h2)

theorem replaceAllNil (pat rep : Str) : replaceAll pat rep [] = [] := rfl

theorem replaceAllPos {pat : Str} (rep : Str) {c : Char} {cs : Str}
    (h : leadsWith pat (c :: cs) = true) (hp : pat ≠ []) :
    replaceAll pat rep (c :: cs) = rep ++ replaceAll pat rep ((c :: cs).drop pat.length) := by
  obtain ⟨p, ps, rfl⟩ : ∃ p ps, pat = p :: ps := by
    cases pat with
    | nil => exact absurd rfl hp
    | cons p ps => exact ⟨p, ps, rfl⟩
  have hcond : (leadsWith (p :: ps) (c :: cs) && !(p :: ps).isEmpty) = true := by
    simp [h, List.isEmpty]
  show replaceFuel _ _ (c :: cs).length (c :: cs) = _
  rw [List.length_cons]
  simp only [replaceFuel]
  rw [if_pos hcond]
  have hd : (c :: cs).drop (p :: ps).length = cs.drop ps.length := by
    simp [List.drop_succ_cons]
  have hd1 : (p :: ps).length - 1 = ps.length := by simp
  rw [hd, hd1]
  refine congrArg (rep ++ ·) ?_
  exact replaceFuelStable _ _ _ _ _ (by simp [List.length_drop]) (le_refl _)

theorem replaceAllNeg {pat : Str} (rep : Str) {c : Char} {cs : Str}
    (h : leadsWith pat (c :: cs) = false) :
    replaceAll pat rep (c :: cs) = c :: replaceAll pat rep cs := by
  show replaceFuel _ _ (c :: cs).length (c :: cs) = _
  rw [List.length_cons]
  simp only [replaceFuel]
  rw [if_neg (by simp [h])]
  rfl

theorem leadsWithRefl (pat t : Str) : leadsWith pat (pat ++ t) = true :=
  (leadsWithEx pat (pat ++ t)).mpr ⟨t, rfl⟩

/-- The scan of `replaceAll` consumes a leading occurrence of the pattern
whole and continues after it: the inserted replacement `rep` is never
re-scanned within the same call. -/
theorem replaceAllAt {pat : Str} (hp : pat ≠ []) (rep t : Str) :
    replaceAll pat rep (pat ++ t) = rep ++ replaceAll pat rep t := by
  obtain ⟨p, ps, rfl⟩ : ∃ p ps, pat = p :: ps := by
    cases pat with
    | nil => exact absurd rfl hp
    | cons p ps => exact ⟨p, ps, rfl⟩
  rw [List.cons_append]
  rw [replaceAllPos rep (by rw [← List.cons_append]; exact leadsWithRefl _ t) hp]
  rw [← List.cons_append, List.drop_left]

theorem occursBEx (q : Str) : ∀ s, occursB q s = true ↔ occursIn q s := by
  intro s
  induction s with
  | nil =>
    simp only [occursB, occursIn, leadsWithEx]
    constructor
    · rintro ⟨t, ht⟩
      exact ⟨[], t, by simpa using ht⟩
    · rintro ⟨a, b, h⟩
      obtain ⟨ha, h2⟩ := List.append_eq_nil.mp ((List.append_assoc a q b) ▸ h).symm
      obtain ⟨hq, hb⟩ := List.append_eq_nil.mp h2
      exact ⟨b, by simp [hq, hb]⟩
  | cons c cs ih =>
    simp only [occursB, Bool.or_eq_true, leadsWithEx, ih]
    constructor
    · rintro (⟨t, ht⟩ | ⟨a, b, h⟩)
      · exact ⟨[], t, by simpa using ht⟩
      · exact ⟨c :: a, b, by simp [h]⟩
    · rintro ⟨a, b, h⟩
      cases a with
      | nil => exact Or.inl ⟨b, by simpa using h⟩
      | cons a0 a' =>
        rw [List.cons_append, List.cons_append] at h
        injection h with h1 h2
        exact Or.inr ⟨a', b, h2⟩

instance occursInDec (q s : Str) : Decidable (occursIn q s) :=
  decidable_of_iff _ (occursBEx q s)

/-- A text without any occurrence of the pattern passes through `replaceAll`
unchanged. -/
theorem replaceAllNoOcc {pat : Str} (rep : Str) :
    ∀ s, ¬ occursIn pat s → replaceAll pat rep s = s := by
  intro s
  induction s with
  | nil => intro _; rfl
  | cons c cs ih =>
    intro hno
    cases hlw : leadsWith pat (c :: cs) with
    | true =>
      obtain ⟨t, ht⟩ := (leadsWithEx pat (c :: cs)).mp hlw
      exact absurd ⟨[], t, by simpa using ht⟩ hno
    | false =>
      rw [replaceAllNeg rep hlw]
      refine congrArg (c :: ·) (ih ?_)
      rintro ⟨a, b, h⟩
      exact hno ⟨c :: a, b, by simp [h]⟩

/- ### `splitFirst` characterizations -/

theorem splitFirstNone {pat : Str} : ∀ {s}, splitFirst pat s = none → ¬ occursIn pat s := by
  intro s
  induction s with
  | nil =>
    intro h hocc
    obtain ⟨a, b, hab⟩ := hocc
    obtain ⟨h12, hb⟩ := List.append_eq_nil.mp hab.symm
    obtain ⟨ha, hq⟩ := List.append_eq_nil.mp h12
    rw [hq] at h
    simp [splitFirst, leadsWith] at h
  | cons c cs ih =>
    intro h hocc
    unfold splitFirst at h
    split at h
    · exact absurd h (by simp)
    · next hlw =>
      obtain ⟨a, b, hab⟩ := hocc
      cases a with
      | nil =>
        exact absurd ((leadsWithEx pat (c :: cs)).mpr ⟨b, by simpa using hab⟩)
          (by simp [hlw])
      | cons a0 a' =>
        rw [List.cons_append, List.cons_append] at hab
        injection hab with h1 h2
        cases hcs : splitFirst pat cs with
        | some r => rw [hcs] at h; obtain ⟨ra, rb⟩ := r; exact absurd h (by simp)
        | none => exact ih hcs ⟨a', b, h2⟩

theorem replaceAllSplit {pat : Str} (hp : pat ≠ []) (rep : Str) :
    ∀ s a b, splitFirst pat s = some (a, b) →
      replaceAll pat rep s = a ++ rep ++ replaceAll pat rep b := by
  intro s
  induction s with
  | nil =>
    intro a b h
    unfold splitFirst at h
    split at h
    · next hl =>
      obtain ⟨t, ht⟩ := (leadsWithEx pat []).mp hl
      exact absurd (List.append_eq_nil.mp ht.symm).1 hp
    · exact absurd h (by simp)
  | cons c cs ih =>
    intro a b h
    unfold splitFirst at h
    split at h
    · next hl =>
      simp only [Option.some.injEq, Prod.mk.injEq] at h
      obtain ⟨ha, hb⟩ := h
      rw [← ha, ← hb, replaceAllPos rep hl hp, List.nil_append]
    · next hl =>
      cases hcs : splitFirst pat cs with
      | none => rw [hcs] at h; exact absurd h (by simp)
      | some r =>
        obtain ⟨ra, rb⟩ := r
        rw [hcs] at h
        simp only [Option.some.injEq, Prod.mk.injEq] at h
        obtain ⟨ha, hb⟩ := h
        rw [← ha, ← hb, replaceAllNeg rep (by simpa using hl), ih ra rb hcs]
        simp

/- ### Combinatorics of well-formed placeholders -/

theorem appendCompare : ∀ (u v b t : Str), u ++ b = v ++ t →
    (∃ w, v = u ++ w) ∨ (∃ w, u = v ++ w) := by
  intro u
  induction u with
  | nil => intro v b t _; exact Or.inl ⟨v, rfl⟩
  | cons c u' ih =>
    intro v b t h
    cases v with
    | nil => exact Or.inr ⟨c :: u', rfl⟩
    | cons d v' =>
      rw [List.cons_append, List.cons_append] at h
      injection h with h1 h2
      rcases ih v' b t h2 with ⟨w, hw⟩ | ⟨w, hw⟩
      · exact Or.inl ⟨w, by rw [List.cons_append, ← hw, h1]⟩
      · exact Or.inr ⟨w, by rw [List.cons_append, ← hw, h1]⟩

theorem bracedTailEq : ∀ (m k w : Str), braceFree m → braceFree k →
    m ++ '}' :: '}' :: w = k ++ ['}', '}'] → m = k ∧ w = [] := by
  intro m
  induction m with
  | nil =>
    intro k w _ hk h
    cases k with
    | nil =>
      rw [List.nil_append, List.nil_append] at h
      injection h with _ h2
      injection h2 with _ h3
      exact ⟨rfl, h3⟩
    | cons d k' =>
      rw [List.nil_append, List.cons_append] at h
      injection h with h1 _
      exact absurd h1.symm (hk d (by simp)).2
  | cons c m' ih =>
    intro k w hm hk h
    cases k with
    | nil =>
      rw [List.cons_append, List.nil_append] at h
      injection h with h1 _
      exact absurd h1 (hm c (by simp)).2
    | cons d k' =>
      rw [List.cons_append, List.cons_append] at h
      injection h with h1 h2
      obtain ⟨hmk, hw⟩ := ih k' w (fun x hx => hm x (by simp [hx]))
        (fun x hx => hk x (by simp [hx])) h2
      exact ⟨by rw [h1, hmk], hw⟩

theorem bracedPrefixEq {m k : Str} (hm : braceFree m) (hk : braceFree k) :
    ∀ {w}, braced m ++ w = braced k → m = k ∧ w = [] := by
  intro w h
  unfold braced at h
  rw [List.cons_append, List.cons_append] at h
  injection h with _ h2
  injection h2 with _ h3
  rw [List.append_assoc] at h3
  exact bracedTailEq m k w hm hk (by simpa using h3)

/-- No nonempty proper suffix of a well-formed placeholder is
prefix-comparable with a well-formed placeholder: a placeholder occurrence
cannot start strictly inside another one. -/
theorem bracedNoInner {m k : Str} (hm : braceFree m) (hk : braceFree k) :
    ∀ a w, braced m = a ++ w → a ≠ [] → w ≠ [] →
      ¬((∃ y, braced k = w ++ y) ∨ (∃ y, w = braced k ++ y)) := by
  intro a w heq ha hw hcomp
  obtain ⟨w0, w₂, rfl⟩ : ∃ w0 w₂, w = w0 :: w₂ := by
    cases w with
    | nil => exact absurd rfl hw
    | cons w0 w₂ => exact ⟨w0, w₂, rfl⟩
  have hw0 : w0 = '{' := by
    rcases hcomp with ⟨y, hy⟩ | ⟨y, hy⟩
    · rw [List.cons_append] at hy
      unfold braced at hy
      injection hy with h1 _
      exact h1.symm
    · unfold braced at hy
      rw [List.cons_append] at hy
      injection hy with h1 _
  subst hw0
  obtain ⟨a0, a', rfl⟩ : ∃ a0 a', a = a0 :: a' := by
    cases a with
    | nil => exact absurd rfl ha
    | cons a0 a' => exact ⟨a0, a', rfl⟩
  unfold braced at heq
  rw [List.cons_append] at heq
  injection heq with _ h2
  cases a' with
  | nil =>
    rw [List.nil_append] at h2
    injection h2 with _ h3
    rcases hcomp with ⟨y, hy⟩ | ⟨y, hy⟩
    · rw [List.cons_append, ← h3] at hy
      unfold braced at hy
      injection hy with _ h4
      cases hmm : m with
      | nil =>
        rw [hmm] at h4
        simp at h4
      | cons e m' =>
        rw [hmm] at h4
        rw [List.cons_append, List.cons_append] at h4
        injection h4 with h5 _
        exact (hm e (by rw [hmm]; simp)).1 h5.symm
    · rw [← h3] at hy
      unfold braced at hy
      rw [List.cons_append, List.cons_append] at hy
      injection hy with _ h4
      cases hmm : m with
      | nil =>
        rw [hmm] at h4
        simp at h4
      | cons e m' =>
        rw [hmm] at h4
        rw [List.cons_append] at h4
        injection h4 with h5 _
        exact (hm e (by rw [hmm]; simp)).1 h5
  | cons a1 a'' =>
    rw [List.cons_append] at h2
    injection h2 with _ h3
    have hmem : '{' ∈ a'' ++ '{' :: w₂ := List.mem_append_right _ (by simp)
    rw [← h3] at hmem
    rcases List.mem_append.mp hmem with hin | hin
    · exact (hm '{' hin).1 rfl
    · simp at hin

/-- Localization: when a text is decomposed both around an occurrence of
`braced k` and around an occurrence of `braced m` with `m ≠ k`, the `braced m`
occurrence lies entirely before or entirely after the `braced k` occurrence. -/
theorem occLocal {m k : Str} (hm : braceFree m) (hk : braceFree k) (hne : m ≠ k) :
    ∀ a1 b1 a b, a1 ++ braced k ++ b1 = a ++ braced m ++ b →
      (∃ u v, a1 = u ++ braced m ++ v) ∨ (∃ u v, b1 = u ++ braced m ++ v) := by
  intro a1 b1 a b hmain
  rw [List.append_assoc, List.append_assoc] at hmain
  rcases appendCompare a1 a _ _ hmain with ⟨w, hw⟩ | ⟨w, hw⟩
  · -- a = a1 ++ w : the braced k occurrence starts at or before braced m
    rw [hw, List.append_assoc] at hmain
    have hmain2 := List.append_cancel_left hmain
    rcases appendCompare (braced k) w b1 (braced m ++ b) hmain2 with ⟨y, hy⟩ | ⟨y, hy⟩
    · -- w = braced k ++ y
      rw [hy, List.append_assoc] at hmain2
      have := List.append_cancel_left hmain2
      exact Or.inr ⟨y, b, by rw [this, List.append_assoc]⟩
    · -- braced k = w ++ y
      by_cases hy0 : y = []
      · rw [hy0, List.append_nil] at hy
        rw [← hy] at hmain2
        have := List.append_cancel_left hmain2
        exact Or.inr ⟨[], b, by simpa using this⟩
      · by_cases hw0 : w = []
        · rw [hw0, List.nil_append] at hmain2
          rcases appendCompare (braced k) (braced m) b1 b hmain2 with ⟨z, hz⟩ | ⟨z, hz⟩
          · exact absurd (bracedPrefixEq hk hm hz.symm).1 (Ne.symm hne)
          · exact absurd (bracedPrefixEq hm hk hz.symm).1 hne
        · rw [hy, List.append_assoc] at hmain2
          have hcanc := List.append_cancel_left hmain2
          rcases appendCompare y (braced m) b1 b hcanc with ⟨z, hz⟩ | ⟨z, hz⟩
          · exact absurd (Or.inl ⟨z, hz⟩) (bracedNoInner hk hm w y hy hw0 hy0)
          · exact absurd (Or.inr ⟨z, hz⟩) (bracedNoInner hk hm w y hy hw0 hy0)
  · -- a1 = a ++ w : the braced m occurrence starts at or before braced k
    rw [hw, List.append_assoc] at hmain
    have hmain2 := List.append_cancel_left hmain
    rcases appendCompare w (braced m) (braced k ++ b1) b hmain2 with ⟨y, hy⟩ | ⟨y, hy⟩
    · -- braced m = w ++ y
      by_cases hy0 : y = []
      · rw [hy0, List.append_nil] at hy
        exact Or.inl ⟨a, [], by rw [hw, ← hy, List.append_nil]⟩
      · by_cases hw0 : w = []
        · rw [hw0, List.nil_append] at hmain2
          rcases appendCompare (braced k) (braced m) b1 b hmain2 with ⟨z, hz⟩ | ⟨z, hz⟩
          · exact absurd (bracedPrefixEq hk hm hz.symm).1 (Ne.symm hne)
          · exact absurd (bracedPrefixEq hm hk hz.symm).1 hne
        · rw [hy, List.append_assoc] at hmain2
          have hcanc := List.append_cancel_left hmain2
          rcases appendCompare (braced k) y b1 b hcanc with ⟨z, hz⟩ | ⟨z, hz⟩
          · exact absurd (Or.inr ⟨z, hz⟩) (bracedNoInner hm hk w y hy hw0 hy0)
          · exact absurd (Or.inl ⟨z, hz⟩) (bracedNoInner hm hk w y hy hw0 hy0)
    · -- w = braced m ++ y
      exact Or.inl ⟨a, y, by rw [hw, hy, List.append_assoc]⟩

/-- Replacing one well-formed placeholder never destroys an occurrence of a
different well-formed placeholder. -/
theorem occursReplacePreserve {m k : Str} (hm : braceFree m) (hk : braceFree k)
    (hne : m ≠ k) (rep : Str) :
    ∀ s, occursIn (braced m) s → occursIn (braced m) (replaceAll (braced k) rep s) := by
  have main : ∀ n s, s.length ≤ n → occursIn (braced m) s →
      occursIn (braced m) (replaceAll (braced k) rep s) := by
    intro n
    induction n with
    | zero =>
      intro s hlen hocc
      have hs : s = [] := List.length_eq_zero.mp (Nat.le_zero.mp hlen)
      subst hs
      obtain ⟨a, b, hab⟩ := hocc
      obtain ⟨h12, _⟩ := List.append_eq_nil.mp hab.symm
      obtain ⟨_, hq⟩ := List.append_eq_nil.mp h12
      simp [braced] at hq
    | succ n ih =>
      intro s hlen hocc
      cases hsp : splitFirst (braced k) s with
      | none =>
        rw [replaceAllNoOcc rep s (splitFirstNone hsp)]
        exact hocc
      | some r =>
        obtain ⟨a1, b1⟩ := r
        have hdec := splitFirstDecomp (braced k) s a1 b1 hsp
        rw [replaceAllSplit (by simp [braced]) rep s a1 b1 hsp]
        obtain ⟨a, b, hab⟩ := hocc
        rcases occLocal hm hk hne a1 b1 a b (hdec.symm.trans hab) with
          ⟨u, v, huv⟩ | ⟨u, v, huv⟩
        · exact ⟨u, v ++ rep ++ replaceAll (braced k) rep b1, by
            rw [huv]; simp [List.append_assoc]⟩
        · have hblen : b1.length ≤ n := by
            have := splitFirstLen hsp
            simp only [braced, List.length_cons, List.length_append] at this
            omega
          obtain ⟨u2, v2, huv2⟩ := ih b1 hblen ⟨u, v, huv⟩
          exact ⟨a1 ++ rep ++ u2, v2, by rw [huv2]; simp [List.append_assoc]⟩
  intro s
  exact main s.length s (le_refl _)

/-- An occurrence of a well-formed placeholder whose name differs from every
key of the scope survives the whole substitution pass. -/
theorem substituteVarsKeeps {m : Str} (hm : braceFree m) :
    ∀ (scope : Scope) (t : Str),
      (∀ kv ∈ scope, braceFree kv.1 ∧ kv.1 ≠ m) →
      occursIn (braced m) t → occursIn (braced m) (substituteVars scope t) := by
  intro scope
  induction scope with
  | nil => intro t _ h; exact h
  | cons kv rest ih =>
    intro t hsc hocc
    show occursIn (braced m) (substituteVars rest (replaceAll (braced kv.1) kv.2 t))
    refine ih _ (fun x hx => hsc x (by simp [hx])) ?_
    have hkv := hsc kv (by simp)
    exact occursReplacePreserve hm hkv.1 (Ne.symm hkv.2) kv.2 t hocc

/-- A text without any occurrence of any scope key's placeholder passes
through the whole substitution unchanged. -/
theorem substituteVarsId : ∀ (scope : Scope) (t : Str),
    (∀ kv ∈ scope, ¬ occursIn (braced kv.1) t) → substituteVars scope t = t := by
  intro scope
  induction scope with
  | nil => intro t _; rfl
  | cons kv rest ih =>
    intro t hsc
    show substituteVars rest (replaceAll (braced kv.1) kv.2 t) = t
    rw [replaceAllNoOcc kv.2 t (hsc kv (by simp))]
    exact ih t (fun x hx => hsc x (by simp [hx]))

/-- When the pattern occurs, the replacement text occurs in the result. -/
theorem repOccursAfterReplace {pat : Str} (hp : pat ≠ []) (rep : Str) :
    ∀ s, occursIn pat s → occursIn rep (replaceAll pat rep s) := by
  intro s hocc
  cases hsp : splitFirst pat s with
  | none => exact absurd hocc (splitFirstNone hsp)
  | some r =>
    obtain ⟨a, b⟩ := r
    rw [replaceAllSplit hp rep s a b hsp]
    exact ⟨a, replaceAll pat rep b, rfl⟩

/-- Occurrence is stable under embedding in a larger text. -/
theorem occursInAppend {q u : Str} (h : occursIn q u) (v w : Str) :
    occursIn q (v ++ u ++ w) := by
  obtain ⟨a, b, hab⟩ := h
  exact ⟨v ++ a, b ++ w, by rw [hab]; simp [List.append_assoc]⟩

theorem replaceAllSelf {pat : Str} (hp : pat ≠ []) (rep : Str) :
    replaceAll pat rep pat = rep := by
  have h := replaceAllAt hp rep []
  rw [List.append_nil] at h
  rw [h, replaceAllNil, List.append_nil]

theorem bracedNeNil (k : Str) : braced k ≠ [] := by simp [braced]

/-- With `currentStepIndex = 0` no prior-output entry applies: the output pass
is the identity. -/
theorem substituteAllZero (steps : List PromptChainStep) (t : Str) :
    substituteAll [] steps 0 t = t := by
  show steps.enum.foldl _ _ = t
  generalize steps.enum = l
  induction l generalizing t with
  | nil => rfl
  | cons p l ih =>
    show List.foldl _ (if p.1 < 0 ∧ p.2.output ≠ [] then _ else t) l = t
    rw [if_neg (by simp)]
    exact ih t

/-- Resolution for stage 1 of a two-stage chain, empty global scope: exactly
the stage-1 output pattern is considered, and only when the output is truthy. -/
theorem substituteAllPair (st1 st2 : PromptChainStep) (t : Str) :
    substituteAll [] [st1, st2] 1 t =
      if st1.output = [] then t else replaceAll (braced (outputKey 1)) st1.output t := by
  simp only [substituteAll, List.enum, List.enumFrom, List.foldl]
  by_cases h : st1.output = []
  · simp [h]
  · simp [h]

/-- Resolution for stage 2 of a one-prior-stage list, empty global scope. -/
theorem substituteAllSingle (st : PromptChainStep) (t : Str) :
    substituteAll [] [st] 1 t =
      if st.output = [] then t else replaceAll (braced (outputKey 1)) st.output t := by
  simp only [substituteAll, List.enum, List.enumFrom, List.foldl]
  by_cases h : st.output = []
  · simp [h]
  · simp [h]

theorem runGoFstNil (g : Scope) (out : Nat → GenResult) (done : List PromptChainStep) :
    (runChainGo g out done []).1 = done := rfl

theorem runGoFstOk (g : Scope) (out : Nat → GenResult) (done : List PromptChainStep)
    (s : PromptChainStep) (rest : List PromptChainStep) {o : Str}
    (hout : out done.length = .ok o) :
    (runChainGo g out done (s :: rest)).1 =
      (runChainGo g out (done ++ [{ s with status := .completed, output := o }]) rest).1 := by
  simp [runChainGo, hout]

theorem runGoFstErr (g : Scope) (out : Nat → GenResult) (done : List PromptChainStep)
    (s : PromptChainStep) (rest : List PromptChainStep) {e : Str}
    (hout : out done.length = .err e) :
    (runChainGo g out done (s :: rest)).1 =
      done ++ { s with status := .error, output := e } :: rest := by
  simp [runChainGo, hout]

/-- All stages of the final list are `completed` exactly when all stages of
the already-processed prefix are and every remaining adapter call succeeds. -/
theorem runGoAllCompleted (g : Scope) (out : Nat → GenResult) :
    ∀ (todo done : List PromptChainStep),
      (∀ s ∈ (runChainGo g out done todo).1, s.status = .completed) ↔
        ((∀ s ∈ done, s.status = .completed) ∧
          ∀ j < todo.length, (out (done.length + j)).isOk = true) := by
  intro todo
  induction todo with
  | nil =>
    intro done
    rw [runGoFstNil]
    constructor
    · intro h
      exact ⟨h, fun j hj => absurd hj (by simp)⟩
    · intro h
      exact h.1
  | cons s rest ih =>
    intro done
    cases hout : out done.length with
    | ok o =>
      rw [runGoFstOk g out done s rest hout, ih]
      constructor
      · rintro ⟨hdone, hrest⟩
        refine ⟨fun x hx => hdone x (List.mem_append_left _ hx), ?_⟩
        intro j hj
        cases j with
        | zero => simp [hout, GenResult.isOk]
        | succ j' =>
          have := hrest j' (by simp only [List.length_cons] at hj; omega)
          rw [List.length_append] at this
          simpa [Nat.add_assoc, Nat.add_comm, Nat.add_left_comm] using this
      · rintro ⟨hdone, hall⟩
        refine ⟨?_, ?_⟩
        · intro x hx
          rcases List.mem_append.mp hx with hx | hx
          · exact hdone x hx
          · simp only [List.mem_singleton] at hx
            rw [hx]
        · intro j hj
          have := hall (j + 1) (by simp only [List.length_cons]; omega)
          rw [List.length_append]
          simpa [Nat.add_assoc, Nat.add_comm, Nat.add_left_comm] using this
    | err e =>
      rw [runGoFstErr g out done s rest hout]
      constructor
      · intro h
        have := h { s with status := .error, output := e } (by simp)
        simp at this
      · rintro ⟨_, hall⟩
        have := hall 0 (by simp)
        rw [Nat.add_zero, hout] at this
        simp [GenResult.isOk] at this

/-- If some remaining adapter call fails, the final list contains a stage in
status `error`. -/
theorem runGoErrSurfaces (g : Scope) (out : Nat → GenResult) :
    ∀ (todo done : List PromptChainStep),
      (∃ j, j < todo.length ∧ (out (done.length + j)).isOk = false) →
      ∃ s ∈ (runChainGo g out done todo).1, s.status = .error := by
  intro todo
  induction todo with
  | nil =>
    intro done h
    obtain ⟨j, hj, _⟩ := h
    exact absurd hj (by simp)
  | cons s rest ih =>
    intro done h
    cases hout : out done.length with
    | ok o =>
      rw [runGoFstOk g out done s rest hout]
      obtain ⟨j, hj, hfail⟩ := h
      cases j with
      | zero =>
        rw [Nat.add_zero, hout] at hfail
        simp [GenResult.isOk] at hfail
      | succ j' =>
        refine ih _ ⟨j', ?_, ?_⟩
        · simp only [List.length_cons] at hj; omega
        · rw [List.length_append]
          simpa [Nat.add_assoc, Nat.add_comm, Nat.add_left_comm] using hfail
    | err e =>
      rw [runGoFstErr g out done s rest hout]
      exact ⟨{ s with status := .error, output := e }, by simp, rfl⟩

theorem removeStepMem (steps : List PromptChainStep) (t : Str) (s : PromptChainStep)
    (h : 1 < steps.length) :
    s ∈ removeStep steps t ↔ s ∈ steps ∧ s.id ≠ t := by
  unfold removeStep
  rw [if_pos h]
  simp [List.mem_filter]

theorem countPbeqLeOne : ∀ (l : List Str) (t : Str), l.Nodup →
    l.countP (fun a => a == t) ≤ 1 := by
  intro l
  induction l with
  | nil => intro t _; simp
  | cons x xs ih =>
    intro t hl
    obtain ⟨hx, hxs⟩ := List.nodup_cons.mp hl
    rw [List.countP_cons]
    by_cases hxt : x = t
    · have h0 : xs.countP (fun a => a == t) = 0 := by
        rw [List.countP_eq_zero]
        intro a ha
        simp only [beq_iff_eq]
        intro he
        rw [← hxt] at he
        exact hx (he ▸ ha)
      simp [h0, hxt]
    · simp only [beq_iff_eq, hxt, if_false, Nat.add_zero]
      exact ih t hxs

/-- The chain editor invariant: at least one stage, and all ids distinct. -/
theorem reachInv : ∀ l, Reach l → 1 ≤ l.length ∧ (l.map PromptChainStep.id).Nodup := by
  intro l h
  induction h with
  | init s => simp
  | add steps s _ hfresh ih =>
    refine ⟨by simp [addStep], ?_⟩
    simp only [addStep, List.map_append, List.map_cons, List.map_nil]
    rw [List.nodup_append]
    refine ⟨ih.2, by simp, ?_⟩
    intro a ha hb
    simp only [List.mem_singleton] at hb
    exact hfresh (hb ▸ ha)
  | remove steps t _ ih =>
    unfold removeStep
    by_cases h : 1 < steps.length
    · rw [if_pos h]
      constructor
      · have hsub : (steps.filter (fun s => s.id != t)).length
            = steps.countP (fun s => s.id != t) :=
          (List.countP_eq_length_filter _ _).symm
        have hcnt : steps.countP (fun s => s.id == t) ≤ 1 := by
          have h1 : steps.countP (fun s => s.id == t)
              = (steps.map PromptChainStep.id).countP (fun a => a == t) := by
            rw [List.countP_map]
            rfl
          rw [h1]
          exact countPbeqLeOne _ t ih.2
        have hlen := List.length_eq_countP_add_countP
          (fun s : PromptChainStep => s.id == t) steps
        have hfun : (fun a : PromptChainStep => decide ¬((a.id == t) = true))
            = (fun s : PromptChainStep => s.id != t) := by
          funext a
          cases h : a.id == t <;> simp [h, bne]
        rw [hfun] at hlen
        rw [hsub]
        omega
      · exact ih.2.sublist (List.Sublist.map _ (List.filter_sublist steps))
    · rw [if_neg h]
      exact ih

theorem memDedupFuel : ∀ (f : Nat) (l : List Str) (y : Str), y ∈ dedupFuel f l → y ∈ l := by
  intro f
  induction f with
  | zero => intro l y h; simp [dedupFuel] at h
  | succ n ih =>
    intro l y h
    cases l with
    | nil => simp [dedupFuel] at h
    | cons x xs =>
      simp only [dedupFuel, List.mem_cons] at h
      rcases h with h | h
      · simp [h]
      · have hm := List.mem_filter.mp (ih _ y h)
        simp [hm.1]

theorem nodupDedupFuel : ∀ (f : Nat) (l : List Str), (dedupFuel f l).Nodup := by
  intro f
  induction f with
  | zero => intro l; simp [dedupFuel]
  | succ n ih =>
    intro l
    cases l with
    | nil => simp [dedupFuel]
    | cons x xs =>
      simp only [dedupFuel]
      rw [List.nodup_cons]
      refine ⟨?_, ih _⟩
      intro hmem
      have hm := List.mem_filter.mp (memDedupFuel n _ x hmem)
      simp at hm

/- ### Sample data for witnesses and counterexamples -/

def blankRicce : RiccePrompt := ⟨[], [], [], [], []⟩

def sampleStep : PromptChainStep := { id := ['a'], name := [], promptData := blankRicce }

/-- Claim C1, counterexample: with global scope mapping output_1 to "G" and
stage 1 completing with output "S", the stage-2 request resolves the
placeholder to the global value "G" — the stage output "S" does not appear —
because substituteAll applies the global pass first. -/
theorem claimOnePrecedenceCounterexample :
    (runChain [(outputKey 1, "G".toList)]
        (fun i => if i = 0 then .ok "S".toList else .ok "T".toList)
        [ { id := ['a'], name := [], promptData := blankRicce },
          { id := ['b'], name := [],
            promptData := ⟨[], braced (outputKey 1), [], [], []⟩ } ]).2.getD 1 []
      = "Role: \nInstruction: G\nContext: \nConstraints: \nEvaluation: ".toList ∧
    ¬ occursIn "S".toList
      ((runChain [(outputKey 1, "G".toList)]
        (fun i => if i = 0 then .ok "S".toList else .ok "T".toList)
        [ { id := ['a'], name := [], promptData := blankRicce },
          { id := ['b'], name := [],
            promptData := ⟨[], braced (outputKey 1), [], [], []⟩ } ]).2.getD 1 []) := by
  decide

/-- Claim C1 (amended): on a name collision between a global variable and a
prior completed stage's reserved output name, the global value wins: the
global pass substitutes first, and the later output pass finds no remaining
placeholder (provided the global value does not itself contain the
placeholder). -/
theorem claimOneGlobalWins (g : Str) (st : PromptChainStep)
    (hg : ¬ occursIn (braced (outputKey 1)) g) :
    substituteAll [(outputKey 1, g)] [st] 1 (braced (outputKey 1)) = g := by
  simp only [substituteAll, List.foldl, List.enum, List.enumFrom]
  rw [replaceAllSelf (bracedNeNil _) g]
  by_cases h : st.output = []
  · rw [if_neg (by simp [h])]
  · rw [if_pos (by simp [h]), replaceAllNoOcc st.output g hg]

theorem claimOneGlobalWinsWitness :
    substituteAll [(outputKey 1, "G".toList)]
      [{ id := ['a'], name := [], promptData := blankRicce,
         output := "S".toList, status := .completed }] 1 (braced (outputKey 1))
      = "G".toList :=
  claimOneGlobalWins "G".toList _ (by decide)

/-- Claim C2: when stage A's call succeeds and stage B's call rejects, the run
ends with A completed (holding its streamed output), B in error (holding the
chunks streamed before the rejection), and C — initially idle with no output —
untouched: still idle, output empty, never attempted. -/
theorem claimTwoFailureHalts (g : Scope) (out : Nat → GenResult)
    (A B C : PromptChainStep) (oA p : Str)
    (h0 : out 0 = .ok oA) (h1 : out 1 = .err p)
    (hC : C.status = .idle) (hCo : C.output = []) :
    (runChain g out [A, B, C]).1.map PromptChainStep.status
        = [.completed, .error, .idle] ∧
    (runChain g out [A, B, C]).1.map PromptChainStep.output = [oA, p, []] := by
  have hfin : (runChain g out [A, B, C]).1
      = [{ A with status := .completed, output := oA },
         { B with status := .error, output := p }, C] := by
    show (runChainGo g out [] [A, B, C]).1 = _
    rw [runGoFstOk g out [] A [B, C] h0]
    simp only [List.nil_append]
    rw [runGoFstErr g out [{ A with status := .completed, output := oA }] B [C] h1]
    rfl
  rw [hfin]
  simp [hC, hCo]

theorem claimTwoFailureHaltsWitness :
    (runChain [] (fun i => if i = 0 then .ok "S".toList else .err "p".toList)
        [sampleStep, { sampleStep with id := ['b'] },
         { sampleStep with id := ['c'] }]).1.map PromptChainStep.status
      = [.completed, .error, .idle] ∧
    (runChain [] (fun i => if i = 0 then .ok "S".toList else .err "p".toList)
        [sampleStep, { sampleStep with id := ['b'] },
         { sampleStep with id := ['c'] }]).1.map PromptChainStep.output
      = ["S".toList, "p".toList, []] :=
  claimTwoFailureHalts _ _ _ _ _ _ _ rfl rfl rfl rfl

/-- Claim C3, counterexample: with scope entries a ↦ "{{b}}" and b ↦ "X" in
that iteration order, resolving "{{a}}" yields "X": the placeholder "{{b}}"
that was introduced by substituting a's value is itself replaced by the later
key's pass within the same resolve call, contradicting the claim that
replacement text is never re-scanned regardless of key order. -/
theorem claimThreeRescanCounterexample :
    substituteVars [("a".toList, braced "b".toList), ("b".toList, "X".toList)]
        (braced "a".toList) = "X".toList ∧
    "X".toList ≠ braced "b".toList := by
  decide

/-- Claim C3 (amended): within one key's pass the scan never re-examines the
inserted replacement (it resumes right after it), so a value containing its
own placeholder is not expanded recursively; but a later key's pass does
replace placeholders introduced by an earlier key's substitution. -/
theorem claimThreeSinglePassPerKey (k rep t : Str) :
    replaceAll (braced k) rep (braced k ++ t) = rep ++ replaceAll (braced k) rep t ∧
    substituteVars [(k, braced k)] (braced k) = braced k := by
  refine ⟨replaceAllAt (bracedNeNil k) rep t, ?_⟩
  show replaceAll (braced k) (braced k) (braced k) = braced k
  exact replaceAllSelf (bracedNeNil k) (braced k)

/-- Claim C4, counterexample: a prior stage that reached completed with an
empty output is not substituted — the placeholder survives instead of being
replaced by the empty string, because the source guards the output pass with
JavaScript truthiness of the output, not with the completed status. -/
theorem claimFourEmptyOutputCounterexample :
    substituteAll []
        [{ id := ['a'], name := [], promptData := blankRicce,
           output := [], status := .completed }] 1 (braced (outputKey 1))
      = braced (outputKey 1) ∧
    braced (outputKey 1) ≠ ([] : Str) := by
  decide

/-- Claim C4 (amended): the placeholder output_1 is substituted for the prior
stage's output exactly when that output is nonempty; the stage's status is
never consulted (the equation holds for every status value). -/
theorem claimFourScopeCharacterization (st : PromptChainStep) :
    substituteAll [] [st] 1 (braced (outputKey 1))
      = if st.output = [] then braced (outputKey 1) else st.output := by
  rw [substituteAllSingle]
  by_cases h : st.output = []
  · simp [h]
  · simp only [h, if_false]
    exact replaceAllSelf (bracedNeNil _) st.output

/-- Claim C5: the run's observable result reports the aggregate outcome: every
stage of the final list is completed exactly when every adapter call for the
chain succeeded, and when some call fails the final list contains a stage in
status error — a state distinguishable from any successful run. -/
theorem claimFiveAggregateResult (g : Scope) (out : Nat → GenResult)
    (steps : List PromptChainStep) :
    ((∀ s ∈ (runChain g out steps).1, s.status = .completed) ↔
      ∀ j < steps.length, (out j).isOk = true) ∧
    ((∃ j, j < steps.length ∧ (out j).isOk = false) →
      ∃ s ∈ (runChain g out steps).1, s.status = .error) := by
  constructor
  · have h := runGoAllCompleted g out steps []
    simpa using h
  · intro hex
    have h := runGoErrSurfaces g out steps []
    exact h (by simpa using hex)

theorem claimFiveAggregateResultWitness :
    ((∀ s ∈ (runChain [] (fun _ => GenResult.err []) [sampleStep]).1,
        s.status = .completed) ↔
      ∀ j < ([sampleStep] : List PromptChainStep).length,
        ((fun _ => GenResult.err []) j).isOk = true) ∧
    ((∃ j, j < ([sampleStep] : List PromptChainStep).length ∧
        ((fun _ => GenResult.err []) j).isOk = false) →
      ∃ s ∈ (runChain [] (fun _ => GenResult.err []) [sampleStep]).1,
        s.status = .error) :=
  claimFiveAggregateResult [] (fun _ => GenResult.err []) [sampleStep]

/-- Claim C6: an occurrence of a well-formed placeholder whose name is not a
key of the scope passes through resolution untouched — it still occurs
verbatim in the result, no error is raised and no blank is substituted — and
resolution with the empty scope is the identity (in particular
resolve("Hello missing-placeholder", empty) is unchanged). -/
theorem claimSixPassthrough (scope : Scope) (t m : Str) (hm : braceFree m)
    (hsc : ∀ kv ∈ scope, braceFree kv.1 ∧ kv.1 ≠ m)
    (hocc : occursIn (braced m) t) :
    occursIn (braced m) (substituteVars scope t) ∧ substituteVars [] t = t :=
  ⟨substituteVarsKeeps hm scope t hsc hocc, rfl⟩

theorem claimSixPassthroughWitness :
    occursIn (braced "missing".toList)
      (substituteVars [("x".toList, "v".toList)] "Hello \x7b\x7bmissing\x7d\x7d".toList) ∧
    substituteVars [] "Hello \x7b\x7bmissing\x7d\x7d".toList = "Hello \x7b\x7bmissing\x7d\x7d".toList :=
  claimSixPassthrough [("x".toList, "v".toList)] "Hello \x7b\x7bmissing\x7d\x7d".toList
    "missing".toList (by decide) (by decide) (by decide)

theorem runGoSndNil (g : Scope) (out : Nat → GenResult) (done : List PromptChainStep) :
    (runChainGo g out done []).2 = [] := rfl

theorem runGoSndOk (g : Scope) (out : Nat → GenResult) (done : List PromptChainStep)
    (s : PromptChainStep) (rest : List PromptChainStep) {o : Str}
    (hout : out done.length = .ok o) :
    (runChainGo g out done (s :: rest)).2 =
      fullPrompt g (done ++ { s with status := .running, output := [] } :: rest)
          done.length s.promptData
        :: (runChainGo g out (done ++ [{ s with status := .completed, output := o }]) rest).2 := by
  simp [runChainGo, hout]

/-- Claim C7: for a two-stage chain with empty global scope whose both calls
succeed and whose first output is nonempty, the requests actually sent are the
fixed labeled concatenations Role/Instruction/Context/Constraints/Evaluation
of the resolved fields — stage 1 resolved against the empty effective scope,
stage 2 with stage 1's final output substituted for output_1 in every field —
and, since stage 2's instruction contains the placeholder, stage 2's request
contains stage 1's output verbatim. -/
theorem claimSevenRequestAssembly (s1 s2 : PromptChainStep) (out : Nat → GenResult)
    (o1 o2 : Str) (h0 : out 0 = .ok o1) (h1 : out 1 = .ok o2) (hne : o1 ≠ [])
    (hocc : occursIn (braced (outputKey 1)) s2.promptData.instruction) :
    (runChain [] out [s1, s2]).2 =
      [ "Role: ".toList ++ s1.promptData.role
          ++ "\nInstruction: ".toList ++ s1.promptData.instruction
          ++ "\nContext: ".toList ++ s1.promptData.context
          ++ "\nConstraints: ".toList ++ s1.promptData.constraints
          ++ "\nEvaluation: ".toList ++ s1.promptData.evaluation,
        "Role: ".toList ++ replaceAll (braced (outputKey 1)) o1 s2.promptData.role
          ++ "\nInstruction: ".toList
          ++ replaceAll (braced (outputKey 1)) o1 s2.promptData.instruction
          ++ "\nContext: ".toList ++ replaceAll (braced (outputKey 1)) o1 s2.promptData.context
          ++ "\nConstraints: ".toList
          ++ replaceAll (braced (outputKey 1)) o1 s2.promptData.constraints
          ++ "\nEvaluation: ".toList
          ++ replaceAll (braced (outputKey 1)) o1 s2.promptData.evaluation ] ∧
    occursIn o1
      ("Role: ".toList ++ replaceAll (braced (outputKey 1)) o1 s2.promptData.role
        ++ "\nInstruction: ".toList
        ++ replaceAll (braced (outputKey 1)) o1 s2.promptData.instruction
        ++ "\nContext: ".toList ++ replaceAll (braced (outputKey 1)) o1 s2.promptData.context
        ++ "\nConstraints: ".toList
        ++ replaceAll (braced (outputKey 1)) o1 s2.promptData.constraints
        ++ "\nEvaluation: ".toList
        ++ replaceAll (braced (outputKey 1)) o1 s2.promptData.evaluation) := by
  constructor
  · show (runChainGo [] out [] [s1, s2]).2 = _
    rw [runGoSndOk [] out [] s1 [s2] h0]
    simp only [List.nil_append]
    rw [runGoSndOk [] out [{ s1 with status := .completed, output := o1 }] s2 [] h1]
    rw [runGoSndNil]
    simp only [List.singleton_append, List.length_nil, List.length_cons, Nat.zero_add]
    simp only [fullPrompt, substituteAllZero, substituteAllPair]
    simp [hne]
  · have hrep := repOccursAfterReplace (bracedNeNil (outputKey 1)) o1 _ hocc
    have hemb := occursInAppend hrep
      ("Role: ".toList ++ replaceAll (braced (outputKey 1)) o1 s2.promptData.role
        ++ "\nInstruction: ".toList)
      ("\nContext: ".toList ++ replaceAll (braced (outputKey 1)) o1 s2.promptData.context
        ++ "\nConstraints: ".toList
        ++ replaceAll (braced (outputKey 1)) o1 s2.promptData.constraints
        ++ "\nEvaluation: ".toList
        ++ replaceAll (braced (outputKey 1)) o1 s2.promptData.evaluation)
    obtain ⟨a, b, hab⟩ := hemb
    exact ⟨a, b, by rw [← hab]; simp [List.append_assoc]⟩

theorem claimSevenRequestAssemblyWitness :
    (runChain []
        (fun i => if i = 0 then .ok "S".toList else .ok "T".toList)
        [ sampleStep,
          { id := ['b'], name := [],
            promptData := ⟨[], braced (outputKey 1), [], [], []⟩ } ]).2 =
      [ "Role: \nInstruction: \nContext: \nConstraints: \nEvaluation: ".toList,
        "Role: \nInstruction: S\nContext: \nConstraints: \nEvaluation: ".toList ] ∧
    occursIn "S".toList "Role: \nInstruction: S\nContext: \nConstraints: \nEvaluation: ".toList := by
  have h := claimSevenRequestAssembly sampleStep
    { id := ['b'], name := [], promptData := ⟨[], braced (outputKey 1), [], [], []⟩ }
    (fun i => if i = 0 then .ok "S".toList else .ok "T".toList)
    "S".toList "T".toList rfl rfl (by decide) (by decide)
  refine ⟨?_, ?_⟩
  · rw [h.1]
    decide
  · have h2 := h.2
    have he : ("Role: ".toList
        ++ replaceAll (braced (outputKey 1)) "S".toList blankRicce.role
        ++ "\nInstruction: ".toList
        ++ replaceAll (braced (outputKey 1)) "S".toList (braced (outputKey 1))
        ++ "\nContext: ".toList ++ replaceAll (braced (outputKey 1)) "S".toList blankRicce.context
        ++ "\nConstraints: ".toList
        ++ replaceAll (braced (outputKey 1)) "S".toList blankRicce.constraints
        ++ "\nEvaluation: ".toList
        ++ replaceAll (braced (outputKey 1)) "S".toList blankRicce.evaluation)
        = "Role: \nInstruction: S\nContext: \nConstraints: \nEvaluation: ".toList := by decide
    rw [← he]
    exact h2

/-- Claim C8, counterexample: variable discovery scans the space-joined
concatenation of the five fields, so a delimiter pair split across two fields
forms a match that exists in no single field, and reordering the fields
changes the result: with role "\x7b\x7ba" and instruction "b\x7d\x7d" the detected set is
{"a b"}, while with the two fields swapped it is empty. -/
theorem claimEightReorderCounterexample :
    detectVariables ⟨"\x7b\x7ba".toList, "b\x7d\x7d".toList, [], [], []⟩ = ["a b".toList] ∧
    detectVariables ⟨"b\x7d\x7d".toList, "\x7b\x7ba".toList, [], [], []⟩ = [] ∧
    detectVariables ⟨"\x7b\x7ba".toList, "b\x7d\x7d".toList, [], [], []⟩
      ≠ detectVariables ⟨"b\x7d\x7d".toList, "\x7b\x7ba".toList, [], [], []⟩ := by
  decide

/-- Claim C8 (amended): detectVariables is a pure, scope-independent function
of the five fields returning a de-duplicated list of names; on prompts whose
placeholders each lie within a single field it behaves as the set of distinct
names and is invariant under field reordering, as on the spec's example — but
not in general, since a placeholder may span a field boundary of the joined
text. -/
theorem claimEightDetect :
    (∀ d : RiccePrompt, (detectVariables d).Nodup) ∧
    detectVariables ⟨"Hi \x7b\x7bx\x7d\x7d".toList, "\x7b\x7bx\x7d\x7d and \x7b\x7by\x7d\x7d".toList, [], [], []⟩
      = ["x".toList, "y".toList] ∧
    detectVariables ⟨"\x7b\x7bx\x7d\x7d and \x7b\x7by\x7d\x7d".toList, "Hi \x7b\x7bx\x7d\x7d".toList, [], [], []⟩
      = ["x".toList, "y".toList] := by
  refine ⟨fun d => nodupDedupFuel _ _, by decide, by decide⟩

/-- Claim C9: resolution is idempotent on its own output when the output
contains no remaining placeholder of any scope key: re-running resolve with
the same scope is then a no-op. -/
theorem claimNineIdempotence (S : Scope) (T : Str)
    (h : ∀ kv ∈ S, ¬ occursIn (braced kv.1) (substituteVars S T)) :
    substituteVars S (substituteVars S T) = substituteVars S T :=
  substituteVarsId S _ h

theorem claimNineIdempotenceWitness :
    substituteVars [("x".toList, "value".toList)]
        (substituteVars [("x".toList, "value".toList)] "Hi \x7b\x7bx\x7d\x7d and \x7b\x7bx\x7d\x7d!".toList)
      = substituteVars [("x".toList, "value".toList)] "Hi \x7b\x7bx\x7d\x7d and \x7b\x7bx\x7d\x7d!".toList :=
  claimNineIdempotence [("x".toList, "value".toList)] "Hi \x7b\x7bx\x7d\x7d and \x7b\x7bx\x7d\x7d!".toList
    (by decide)

/-- Claim C10: removal is refused on a single-stage chain; on longer chains a
stage survives removal exactly when its id differs from the target; and every
chain reachable from the initial single stage by addStep (fresh id) and
removeStep has at least one stage. -/
theorem claimTenChainNonempty :
    (∀ (steps : List PromptChainStep) (t : Str), steps.length = 1 →
      removeStep steps t = steps) ∧
    (∀ (steps : List PromptChainStep) (t : Str) (s : PromptChainStep),
      1 < steps.length → (s ∈ removeStep steps t ↔ s ∈ steps ∧ s.id ≠ t)) ∧
    (∀ l, Reach l → 1 ≤ l.length) := by
  refine ⟨?_, removeStepMem, fun l h => (reachInv l h).1⟩
  intro steps t h
  unfold removeStep
  rw [if_neg (by omega)]

theorem claimTenChainNonemptyWitness :
    removeStep [sampleStep] "b".toList = [sampleStep] ∧
    (sampleStep ∈ removeStep [sampleStep, { sampleStep with id := ['b'] }] ['b'] ↔
      sampleStep ∈ [sampleStep, { sampleStep with id := ['b'] }] ∧ sampleStep.id ≠ ['b']) ∧
    1 ≤ ([sampleStep] : List PromptChainStep).length :=
  ⟨claimTenChainNonempty.1 [sampleStep] "b".toList rfl,
   claimTenChainNonempty.2.1 [sampleStep, { sampleStep with id := ['b'] }] ['b']
     sampleStep (by decide),
   claimTenChainNonempty.2.2 [sampleStep] (Reach.init sampleStep)⟩
